import Mathlib

/-!
Shallow embedding of the upload storage engine of `src/upload.rs`.

The filesystem (the contents of the configured target directory) is modelled
as an association list from file names to byte contents.  The OS-level
atomic-exclusive create (`OpenOptions::new().write(true).create_new(true)`)
is one atomic step `openCreateNew` on that state; non-collision I/O failures
are injected through a `fault` flag.  `tokio::io::copy_buf` is modelled by
`copyBuf`, which loops over environment-chosen chunk sizes (short writes)
until the buffer is drained or a write fails.  The retry loop of `post` is
driven by a list of per-iteration environments (entropy for `generate_name`,
create fault, write schedule); an exhausted list yields `none`, meaning the
modelled run has no outcome yet (the real loop would keep iterating).
-/

namespace Upload

/-- Model of the inner `num_to_char` of `generate_name` in `src/upload.rs`:
values 0-25 map to lowercase letters, 26-51 to uppercase letters, 52-61 to
digits; `none` models the `panic` arm for values outside `0..=61`. -/
def num_to_char (num : Nat) : Option Char :=
  if num ≤ 25 then some (Char.ofNat (97 + num))
  else if num ≤ 51 then some (Char.ofNat (65 + (num - 26)))
  else if num ≤ 61 then some (Char.ofNat (48 + (num - 52)))
  else none

/-- Model of one call `rng.gen_range(0..=61)`: the raw entropy value is
reduced into the inclusive range `0..=61`. -/
def genRange61 (e : Nat) : Nat := e % 62

/-- The character-collection loop of `generate_name`: iteration `i` draws one
sample and converts it; `none` propagates the (unreachable) panic. -/
def gen_chars (entropy : Nat → Nat) : Nat → Nat → Option (List Char)
  | _, 0 => some []
  | i, n + 1 => do
    let c ← num_to_char (genRange61 (entropy i))
    let rest ← gen_chars entropy (i + 1) n
    pure (c :: rest)

/-- Model of `generate_name(len)` in `src/upload.rs`, with the thread rng
made explicit as an entropy stream indexed by iteration. -/
def generate_name (len : Nat) (entropy : Nat → Nat) : Option String :=
  (gen_chars entropy 0 len).map fun cs => String.mk cs

/-- Model of Rust `str::rsplit_once` on a list of characters: split at the
last occurrence of `c`, returning the parts before and after it. -/
def rsplitOnceList (c : Char) : List Char → Option (List Char × List Char)
  | [] => none
  | x :: xs =>
    match rsplitOnceList c xs with
    | some pq => some (x :: pq.1, pq.2)
    | none => if x = c then some ([], xs) else none

/-- Model of `original_name.rsplit_once(c)` on strings. -/
def rsplit_once (s : String) (c : Char) : Option (String × String) :=
  (rsplitOnceList c s.data).map fun pq => (String.mk pq.1, String.mk pq.2)

/-- First-match lookup of a file's content in the directory listing. -/
def lookupContent : List (String × List Nat) → String → Option (List Nat)
  | [], _ => none
  | p :: rest, n => if p.1 = n then some p.2 else lookupContent rest n

/-- Replace the content stored under `name` in the directory listing. -/
def setEntries (name : String) (c : List Nat) :
    List (String × List Nat) → List (String × List Nat)
  | [] => []
  | p :: rest => (if p.1 = name then (name, c) else p) :: setEntries name c rest

/-- Existence check on the directory listing. -/
def hasEntry (name : String) : List (String × List Nat) → Bool
  | [] => false
  | p :: rest => if p.1 = name then true else hasEntry name rest

/-- The state of the configured target directory: file names paired with the
byte contents currently stored under them. -/
structure FS where
  files : List (String × List Nat)
deriving DecidableEq

def FS.hasFile (fs : FS) (name : String) : Bool := hasEntry name fs.files

def FS.content (fs : FS) (name : String) : Option (List Nat) :=
  lookupContent fs.files name

def FS.setContent (fs : FS) (name : String) (c : List Nat) : FS :=
  FS.mk (setEntries name c fs.files)

/-- The two classes of create-time I/O errors the handler distinguishes:
`ErrorKind::AlreadyExists` versus everything else. -/
inductive IoErrKind where
  | alreadyExists
  | other
deriving DecidableEq

instance exceptDecEq {ε α : Type} [DecidableEq ε] [DecidableEq α] :
    DecidableEq (Except ε α) := fun x y =>
  match x, y with
  | .ok a, .ok b =>
    if h : a = b then isTrue (by rw [h]) else isFalse fun hc => h (Except.ok.inj hc)
  | .error a, .error b =>
    if h : a = b then isTrue (by rw [h]) else isFalse fun hc => h (Except.error.inj hc)
  | .ok _, .error _ => isFalse fun hc => Except.noConfusion hc
  | .error _, .ok _ => isFalse fun hc => Except.noConfusion hc

/-- Model of `OpenOptions::new().write(true).create_new(true).open(path)`:
one atomic step that creates the (empty) file exactly when no file exists at
`name`, and fails with `AlreadyExists` otherwise.  `fault` injects any other
I/O failure (permission denied, disk full, ...). -/
def openCreateNew (fs : FS) (name : String) (fault : Bool) : Except IoErrKind FS :=
  if fault then .error .other
  else if fs.hasFile name then .error .alreadyExists
  else .ok (FS.mk ((name, []) :: fs.files))

/-- Model of `tokio::io::copy_buf` from an in-memory buffer into the created
file: each step of the schedule either fails the write call (`none`), writes
zero bytes (an error for the copy loop), or accepts that many bytes; the
loop runs until the buffer is drained.  Returns the bytes that reached the
file and whether the copy succeeded; `none` when the schedule is exhausted
with data still unwritten. -/
def copyBuf : List Nat → List Nat → List (Option Nat) → Option (List Nat × Bool)
  | [], acc, _ => some (acc, true)
  | _ :: _, _, [] => none
  | _ :: _, acc, none :: _ => some (acc, false)
  | _ :: _, acc, some 0 :: _ => some (acc, false)
  | b :: rem, acc, some (k + 1) :: steps =>
    copyBuf (rem.drop k) (acc ++ b :: rem.take k) steps

/-- The two HTTP status codes the handler returns on failure. -/
inductive HttpError where
  | badRequest
  | internalServerError
deriving DecidableEq

/-- The environment of one iteration of the retry loop: the rng samples the
iteration draws, whether the create call fails with a non-collision error,
and the write schedule for `copyBuf` after a successful create. -/
structure AttemptEnv where
  entropy : Nat → Nat
  createFault : Bool
  writeSteps : List (Option Nat)

/-- The candidate name one loop iteration opens: the original name verbatim
in keep-name mode, otherwise the generated identifier, a dot, and the
extracted extension. -/
def candidateName (cfgLen : Nat) (keepName : Bool) (originalName ext : String)
    (env : AttemptEnv) : Option String :=
  if keepName then some originalName
  else (generate_name cfgLen env.entropy).map fun g => g ++ "." ++ ext

/-- The retry loop of `post` (lines 75-114 of `src/upload.rs`): open the
candidate with an atomic exclusive create; on `AlreadyExists` retry with a
fresh name in random mode but fail with 500 in keep-name mode; on any other
create error fail with 500; after a successful create copy the bytes,
returning the name on success and 500 on a write error, in either case
leaving the created file in place. -/
def postLoop (cfgLen : Nat) (keepName : Bool) (originalName ext : String)
    (bytes : List Nat) : FS → List AttemptEnv → Option (Except HttpError String × FS)
  | _, [] => none
  | fs, env :: rest =>
    match candidateName cfgLen keepName originalName ext env with
    | none => none
    | some name =>
      match openCreateNew fs name env.createFault with
      | .error .alreadyExists =>
        if keepName then some (.error .internalServerError, fs)
        else postLoop cfgLen keepName originalName ext bytes fs rest
      | .error .other => some (.error .internalServerError, fs)
      | .ok fs1 =>
        match copyBuf bytes [] env.writeSteps with
        | none => none
        | some (written, true) => some (.ok name, fs1.setContent name written)
        | some (written, false) =>
          some (.error .internalServerError, fs1.setContent name written)

/-- One field of the multipart body as the handler observes it: the field
name, the file name of its content disposition, and the outcome of reading
its bytes (`none` models a read error). -/
structure Part where
  fieldName : Option String
  fileName : Option String
  bytesRead : Option (List Nat)

/-- Model of `get_file_name_and_bytes` (lines 117-137 of `src/upload.rs`).
The body is `none` when `next_field()` itself errors, and otherwise the list
of fields; only the first field is ever taken.  Every failure is mapped to
`BAD_REQUEST`. -/
def get_file_name_and_bytes : Option (List Part) → Except HttpError (String × List Nat)
  | none => .error .badRequest
  | some [] => .error .badRequest
  | some (field :: _) =>
    if field.fieldName = some "file" then
      match field.fileName with
      | none => .error .badRequest
      | some fn =>
        match field.bytesRead with
        | none => .error .badRequest
        | some bs => .ok (fn, bs)
    else .error .badRequest

/-- Model of the `post` handler: read the keep-name query parameter with
default `false`, extract the file name and bytes from the body, extract the
extension after the last dot (`BAD_REQUEST` when there is none), then run
the store loop. -/
def post (cfgLen : Nat) (keepNameParam : Option Bool) (body : Option (List Part))
    (fs : FS) (envs : List AttemptEnv) : Option (Except HttpError String × FS) :=
  match get_file_name_and_bytes body with
  | .error e => some (.error e, fs)
  | .ok fnbs =>
    match rsplit_once fnbs.1 '.' with
    | none => some (.error .badRequest, fs)
    | some pq =>
      postLoop cfgLen (keepNameParam.getD false) fnbs.1 pq.2 fnbs.2 fs envs

/-- Split a character list at slashes, accumulating the current segment in
reverse. -/
def splitSegs : List Char → List Char → List (List Char)
  | cur, [] => [cur.reverse]
  | cur, c :: rest =>
    if c = '/' then cur.reverse :: splitSegs [] rest else splitSegs (c :: cur) rest

/-- Path components of a caller-supplied name, as `PathBuf::push` sees them:
segments between slashes, empty segments ignored. -/
def splitPathComponents (name : String) : List String :=
  ((splitSegs [] name.data).filter fun seg => seg ≠ []).map fun seg => String.mk seg

/-- Whether the caller-supplied name is an absolute path. -/
def isAbsolutePath (name : String) : Bool :=
  match name.data with
  | [] => false
  | c :: _ => c = '/'

/-- Model of `path.push(&name)` on a directory given as a component list: an
absolute name replaces the path wholesale, otherwise its components are
appended. -/
def pathPush (dir : List String) (name : String) : List String :=
  if isAbsolutePath name then splitPathComponents name
  else dir ++ splitPathComponents name

/-- One step of the OS resolving a path component at open time. -/
def resolveStep (acc : List String) (c : String) : List String :=
  if c = ".." then acc.dropLast else if c = "." then acc else acc ++ [c]

/-- The path the OS actually opens: components resolved left to right. -/
def resolvePath (l : List String) : List String := l.foldl resolveStep []

/-- Whether a path denotes a direct entry of the directory `dir`. -/
def insideDirB (dir path : List String) : Bool :=
  dir.isPrefixOf (resolvePath path) && ((resolvePath path).length == dir.length + 1)

/-- The two interleavings of two concurrent create attempts for the same
name: each attempt is a single atomic `openCreateNew` step, so a schedule is
just an order; a failed create leaves the filesystem unchanged. -/
inductive Schedule where
  | firstThenSecond
  | secondThenFirst

/-- Filesystem state after a create attempt: updated on success, unchanged
on failure. -/
def stepFS (fs : FS) (r : Except IoErrKind FS) : FS :=
  match r with
  | .ok fs1 => fs1
  | .error _ => fs

/-- Whether a create attempt succeeded. -/
def isOkB (r : Except IoErrKind FS) : Bool :=
  match r with
  | .ok _ => true
  | .error _ => false

/-- Run two concurrent create attempts for the same `name` under a given
interleaving, returning each attempt's result. -/
def runTwo (fs : FS) (name : String) (f1 f2 : Bool) :
    Schedule → Except IoErrKind FS × Except IoErrKind FS
  | .firstThenSecond =>
    let r1 := openCreateNew fs name f1
    let r2 := openCreateNew (stepFS fs r1) name f2
    (r1, r2)
  | .secondThenFirst =>
    let r2 := openCreateNew fs name f2
    let r1 := openCreateNew (stepFS fs r2) name f1
    (r1, r2)

/-- The 62-symbol alphabet of generated identifiers, in value order. -/
def alphabet62 : String :=
  "abcdefghijklmnopqrstuvwxyzABCDEFGHIJKLMNOPQRSTUVWXYZ0123456789"

/-- Every in-range sample converts to a character. -/
theorem num_to_char_isSome : ∀ v : Nat, v < 62 → (num_to_char v).isSome = true := by
  decide

/-- Every in-range sample converts to a character of the alphabet. -/
theorem num_to_char_getD_mem : ∀ v : Nat, v < 62 →
    (num_to_char v).getD 'a' ∈ alphabet62.data := by
  decide

/-- Every character produced by the converter belongs to the alphabet. -/
theorem num_to_char_mem_alphabet (v : Nat) (hv : v < 62) (c : Char)
    (hc : num_to_char v = some c) : c ∈ alphabet62.data := by
  have h := num_to_char_getD_mem v hv
  rw [hc] at h
  exact h

/-- The sampling loop always yields a list of the requested length whose
entries are the converted samples. -/
theorem gen_chars_spec (entropy : Nat → Nat) (n : Nat) : ∀ i : Nat,
    ∃ l : List Char, gen_chars entropy i n = some l ∧ l.length = n ∧
      ∀ j, j < n → l[j]? = num_to_char (genRange61 (entropy (i + j))) := by
  induction n with
  | zero =>
    intro i
    exact ⟨[], rfl, rfl, fun j hj => absurd hj (Nat.not_lt_zero j)⟩
  | succ n ih =>
    intro i
    obtain ⟨l, hl, hlen, hget⟩ := ih (i + 1)
    have hs : (num_to_char (genRange61 (entropy i))).isSome = true :=
      num_to_char_isSome _ (Nat.mod_lt _ (by omega))
    obtain ⟨c, hc⟩ := Option.isSome_iff_exists.mp hs
    refine ⟨c :: l, ?_, by simp [hlen], ?_⟩
    · simp [gen_chars, hc, hl]
    · intro j hj
      cases j with
      | zero => simpa using hc.symm
      | succ j =>
        have := hget j (by omega)
        simpa [Nat.add_assoc, Nat.add_comm 1 j] using this

/-- The split fails exactly when the separator does not occur. -/
theorem rsplitOnceList_eq_none (c : Char) (l : List Char) :
    rsplitOnceList c l = none ↔ c ∉ l := by
  induction l with
  | nil => simp [rsplitOnceList]
  | cons x xs ih =>
    cases hr : rsplitOnceList c xs with
    | some pq =>
      have hmem : c ∈ xs := by
        by_contra hcm
        rw [ih.mpr hcm] at hr
        exact Option.noConfusion hr
      simp [rsplitOnceList, hr, hmem]
    | none =>
      have hxs : c ∉ xs := ih.mp hr
      by_cases hx : x = c
      · subst hx
        simp [rsplitOnceList, hr]
      · have hcx : ¬c = x := fun h => hx h.symm
        simp [rsplitOnceList, hr, hx, hcx, hxs]

/-- A successful split reassembles the original list and the suffix holds no
further occurrence of the separator, so the split is at the last one. -/
theorem rsplitOnceList_eq_some (c : Char) (l : List Char) : ∀ p q : List Char,
    rsplitOnceList c l = some (p, q) → l = p ++ c :: q ∧ c ∉ q := by
  induction l with
  | nil =>
    intro p q h
    exact absurd h (by simp [rsplitOnceList])
  | cons x xs ih =>
    intro p q h
    cases hr : rsplitOnceList c xs with
    | some pq =>
      rw [rsplitOnceList, hr] at h
      simp only [Option.some.injEq, Prod.mk.injEq] at h
      obtain ⟨hp, hq⟩ := h
      obtain ⟨hxs, hnot⟩ := ih pq.1 pq.2 hr
      subst hp
      subst hq
      exact ⟨by simp [hxs], hnot⟩
    | none =>
      rw [rsplitOnceList, hr] at h
      by_cases hx : x = c
      · rw [if_pos hx] at h
        simp only [Option.some.injEq, Prod.mk.injEq] at h
        obtain ⟨hp, hq⟩ := h
        subst hp
        subst hq
        subst hx
        exact ⟨by simp, (rsplitOnceList_eq_none x xs).mp hr⟩
      · rw [if_neg hx] at h
        exact absurd h (by simp)

/-- Any outcome of the copy loop has written a prefix of the buffer, and a
successful outcome has written all of it. -/
theorem copyBuf_spec (steps : List (Option Nat)) : ∀ rem acc c : List Nat, ∀ b : Bool,
    copyBuf rem acc steps = some (c, b) →
      (b = true → c = acc ++ rem) ∧ ∃ k, c = acc ++ rem.take k := by
  induction steps with
  | nil =>
    intro rem acc c b h
    cases rem with
    | nil =>
      simp only [copyBuf, Option.some.injEq, Prod.mk.injEq] at h
      obtain ⟨hc, _⟩ := h
      exact ⟨fun _ => by simp [← hc], 0, by simp [← hc]⟩
    | cons x xs => exact absurd h (by simp [copyBuf])
  | cons step steps ih =>
    intro rem acc c b h
    cases rem with
    | nil =>
      simp only [copyBuf, Option.some.injEq, Prod.mk.injEq] at h
      obtain ⟨hc, _⟩ := h
      exact ⟨fun _ => by simp [← hc], 0, by simp [← hc]⟩
    | cons x xs =>
      cases step with
      | none =>
        simp only [copyBuf, Option.some.injEq, Prod.mk.injEq] at h
        obtain ⟨hc, hb⟩ := h
        subst hc
        subst hb
        exact ⟨fun hcon => Bool.noConfusion hcon, 0, by simp⟩
      | some k =>
        cases k with
        | zero =>
          simp only [copyBuf, Option.some.injEq, Prod.mk.injEq] at h
          obtain ⟨hc, hb⟩ := h
          subst hc
          subst hb
          exact ⟨fun hcon => Bool.noConfusion hcon, 0, by simp⟩
        | succ k =>
          rw [copyBuf] at h
          obtain ⟨hfull, hpre⟩ := ih (xs.drop k) (acc ++ x :: xs.take k) c b h
          constructor
          · intro hb
            rw [hfull hb]
            simp
          · obtain ⟨k2, hk2⟩ := hpre
            refine ⟨k + 1 + k2, ?_⟩
            rw [hk2]
            simp [List.take_add]

/-- Replacing one file's content never changes which names exist. -/
theorem hasEntry_setEntries (m : String) (c : List Nat) (l : List (String × List Nat))
    (n : String) : hasEntry n (setEntries m c l) = hasEntry n l := by
  induction l with
  | nil => rfl
  | cons p rest ih =>
    by_cases hp : p.1 = m
    · simp [setEntries, hasEntry, hp, ih]
    · simp [setEntries, hasEntry, hp, ih]

/-- Replacing one file's content leaves every other file's content alone. -/
theorem lookupContent_setEntries_ne (m : String) (c : List Nat)
    (l : List (String × List Nat)) (n : String) (hnm : n ≠ m) :
    lookupContent (setEntries m c l) n = lookupContent l n := by
  induction l with
  | nil => rfl
  | cons p rest ih =>
    by_cases hp : p.1 = m
    · have hpn : ¬m = n := fun h => hnm h.symm
      simp [setEntries, lookupContent, hp, hpn, ih]
    · simp only [setEntries, if_neg hp]
      by_cases hn : p.1 = n
      · simp [lookupContent, hn]
      · simp [lookupContent, hn, ih]

/-- Looking up under a different head entry skips it. -/
theorem lookupContent_cons_ne (m n : String) (c0 : List Nat)
    (l : List (String × List Nat)) (h : ¬m = n) :
    lookupContent ((m, c0) :: l) n = lookupContent l n := by
  simp [lookupContent, h]

/-- Existence under a different head entry skips it. -/
theorem hasEntry_cons_ne (m n : String) (c0 : List Nat)
    (l : List (String × List Nat)) (h : ¬m = n) :
    hasEntry n ((m, c0) :: l) = hasEntry n l := by
  simp [hasEntry, h]

/-- After creating a fresh file and then setting its content, looking it up
returns exactly that content. -/
theorem content_after_create (fs : FS) (name : String) (w : List Nat) :
    ((FS.mk ((name, []) :: fs.files)).setContent name w).content name = some w := by
  simp [FS.setContent, FS.content, setEntries, lookupContent]

/-- A successful exclusive create means the file was absent, no fault was
injected, and the new state holds exactly one new empty file. -/
theorem openCreateNew_ok (fs fs1 : FS) (name : String) (fault : Bool)
    (h : openCreateNew fs name fault = .ok fs1) :
    fault = false ∧ fs.hasFile name = false ∧ fs1 = FS.mk ((name, []) :: fs.files) := by
  by_cases hf : fault
  · rw [openCreateNew, if_pos hf] at h
    exact absurd h (by simp)
  · rw [openCreateNew, if_neg hf] at h
    by_cases he : fs.hasFile name
    · rw [if_pos he] at h
      exact absurd h (by simp)
    · rw [if_neg he] at h
      simp only [Except.ok.injEq] at h
      exact ⟨Bool.of_not_eq_true hf ▸ rfl, Bool.of_not_eq_true he ▸ rfl, h.symm⟩

/-- When the store loop returns a name, the file stored under that name
holds exactly the uploaded bytes. -/
theorem postLoop_ok_content (cfgLen : Nat) (keepName : Bool) (orig ext : String)
    (bytes : List Nat) (envs : List AttemptEnv) : ∀ fs fs' : FS, ∀ name : String,
    postLoop cfgLen keepName orig ext bytes fs envs = some (.ok name, fs') →
      fs'.content name = some bytes := by
  induction envs with
  | nil =>
    intro fs fs' name h
    exact absurd h (by simp [postLoop])
  | cons env rest ih =>
    intro fs fs' name h
    cases hcand : candidateName cfgLen keepName orig ext env with
    | none => simp [postLoop, hcand] at h
    | some cname =>
      cases hopen : openCreateNew fs cname env.createFault with
      | error e =>
        cases e with
        | alreadyExists =>
          cases hk : keepName with
          | true =>
            simp only [postLoop, hcand, hopen] at h
            rw [if_pos hk] at h
            exact absurd h (by simp)
          | false =>
            simp only [postLoop, hcand, hopen] at h
            rw [if_neg (by simp [hk])] at h
            exact ih fs fs' name h
        | other => simp [postLoop, hcand, hopen] at h
      | ok fs1 =>
        obtain ⟨hfault, hexist, hfs1⟩ := openCreateNew_ok fs fs1 cname env.createFault hopen
        cases hcopy : copyBuf bytes [] env.writeSteps with
        | none => simp [postLoop, hcand, hopen, hcopy] at h
        | some wb =>
          obtain ⟨written, b⟩ := wb
          cases b with
          | false => simp [postLoop, hcand, hopen, hcopy] at h
          | true =>
            simp only [postLoop, hcand, hopen, hcopy, Option.some.injEq, Prod.mk.injEq,
              Except.ok.injEq] at h
            obtain ⟨hname, hfs'⟩ := h
            obtain ⟨hfull, -⟩ := copyBuf_spec env.writeSteps bytes [] written true hcopy
            have hw : written = bytes := by simpa using hfull rfl
            subst hname
            rw [← hfs', hfs1, hw]
            exact content_after_create fs cname bytes

/-- The store loop never deletes and never rewrites a file that already
existed when it started. -/
theorem postLoop_frame (cfgLen : Nat) (keepName : Bool) (orig ext : String)
    (bytes : List Nat) (envs : List AttemptEnv) : ∀ fs fs' : FS,
    ∀ r : Except HttpError String,
    postLoop cfgLen keepName orig ext bytes fs envs = some (r, fs') →
      ∀ n : String, fs.hasFile n = true →
        fs'.hasFile n = true ∧ fs'.content n = fs.content n := by
  induction envs with
  | nil =>
    intro fs fs' r h
    exact absurd h (by simp [postLoop])
  | cons env rest ih =>
    intro fs fs' r h n hn
    cases hcand : candidateName cfgLen keepName orig ext env with
    | none => simp [postLoop, hcand] at h
    | some cname =>
      cases hopen : openCreateNew fs cname env.createFault with
      | error e =>
        cases e with
        | alreadyExists =>
          cases hk : keepName with
          | true =>
            simp only [postLoop, hcand, hopen] at h
            rw [if_pos hk] at h
            simp only [Option.some.injEq, Prod.mk.injEq] at h
            rw [← h.2]
            exact ⟨hn, rfl⟩
          | false =>
            simp only [postLoop, hcand, hopen] at h
            rw [if_neg (by simp [hk])] at h
            exact ih fs fs' r h n hn
        | other =>
          simp only [postLoop, hcand, hopen, Option.some.injEq, Prod.mk.injEq] at h
          rw [← h.2]
          exact ⟨hn, rfl⟩
      | ok fs1 =>
        obtain ⟨hfault, hexist, hfs1⟩ := openCreateNew_ok fs fs1 cname env.createFault hopen
        have hne : ¬cname = n := by
          intro hEq
          have hfalse : fs.hasFile n = false := hEq ▸ hexist
          simp [hn] at hfalse
        cases hcopy : copyBuf bytes [] env.writeSteps with
        | none => simp [postLoop, hcand, hopen, hcopy] at h
        | some wb =>
          obtain ⟨written, b⟩ := wb
          have hfs' : fs' = fs1.setContent cname written := by
            cases b with
            | true =>
              simp only [postLoop, hcand, hopen, hcopy, Option.some.injEq,
                Prod.mk.injEq] at h
              exact h.2.symm
            | false =>
              simp only [postLoop, hcand, hopen, hcopy, Option.some.injEq,
                Prod.mk.injEq] at h
              exact h.2.symm
          constructor
          · rw [hfs', hfs1]
            show hasEntry n (setEntries cname written ((cname, []) :: fs.files)) = true
            rw [hasEntry_setEntries, hasEntry_cons_ne cname n [] fs.files hne]
            exact hn
          · rw [hfs', hfs1]
            show lookupContent (setEntries cname written ((cname, []) :: fs.files)) n = _
            rw [lookupContent_setEntries_ne cname written ((cname, []) :: fs.files) n
                (fun hq => hne hq.symm),
              lookupContent_cons_ne cname n [] fs.files hne]
            rfl

/-- Every name the store loop returns in random mode is a generated
identifier followed by a dot and the extension, produced by one of the
iteration environments. -/
theorem postLoop_random_names (cfgLen : Nat) (orig ext : String) (bytes : List Nat)
    (envs : List AttemptEnv) : ∀ fs fs' : FS, ∀ name : String,
    postLoop cfgLen false orig ext bytes fs envs = some (.ok name, fs') →
      ∃ env ∈ envs, ∃ g, generate_name cfgLen env.entropy = some g ∧
        name = g ++ "." ++ ext := by
  induction envs with
  | nil =>
    intro fs fs' name h
    exact absurd h (by simp [postLoop])
  | cons env rest ih =>
    intro fs fs' name h
    cases hcand : candidateName cfgLen false orig ext env with
    | none => simp [postLoop, hcand] at h
    | some cname =>
      cases hopen : openCreateNew fs cname env.createFault with
      | error e =>
        cases e with
        | alreadyExists =>
          simp only [postLoop, hcand, hopen] at h
          rw [if_neg (by simp)] at h
          obtain ⟨env2, hmem, g, hg, hname⟩ := ih fs fs' name h
          exact ⟨env2, List.mem_cons_of_mem env hmem, g, hg, hname⟩
        | other => simp [postLoop, hcand, hopen] at h
      | ok fs1 =>
        cases hcopy : copyBuf bytes [] env.writeSteps with
        | none => simp [postLoop, hcand, hopen, hcopy] at h
        | some wb =>
          obtain ⟨written, b⟩ := wb
          cases b with
          | false => simp [postLoop, hcand, hopen, hcopy] at h
          | true =>
            simp only [postLoop, hcand, hopen, hcopy, Option.some.injEq, Prod.mk.injEq,
              Except.ok.injEq] at h
            obtain ⟨hname, -⟩ := h
            simp only [candidateName, Bool.false_eq_true, if_false] at hcand
            cases hg : generate_name cfgLen env.entropy with
            | none =>
              rw [hg] at hcand
              exact absurd hcand (by simp)
            | some g =>
              rw [hg] at hcand
              simp only [Option.map_some', Option.some.injEq] at hcand
              exact ⟨env, List.mem_cons_self env rest, g, hg, by rw [← hname, ← hcand]⟩

/-- Two strings with the same characters are equal. -/
theorem string_eq_of_data (a b : String) (h : a.data = b.data) : a = b := by
  cases a
  cases b
  exact congrArg String.mk h

/-- Appending strings concatenates their characters. -/
theorem string_data_append (a b : String) : (a ++ b).data = a.data ++ b.data := by
  cases a
  cases b
  rfl

/-- A slash-free character list is a single segment. -/
theorem splitSegs_no_slash (l : List Char) (h : '/' ∉ l) : ∀ cur : List Char,
    splitSegs cur l = [cur.reverse ++ l] := by
  induction l with
  | nil =>
    intro cur
    simp [splitSegs]
  | cons c rest ih =>
    intro cur
    have hc : ¬c = '/' := fun hEq => h (hEq ▸ List.mem_cons_self c rest)
    have hrest : '/' ∉ rest := fun hm => h (List.mem_cons_of_mem c hm)
    rw [splitSegs, if_neg hc, ih hrest (c :: cur)]
    simp

/-- A slash-free, non-empty name is a single path component. -/
theorem splitPathComponents_single (name : String) (h1 : '/' ∉ name.data)
    (h2 : ¬name = "") : splitPathComponents name = [name] := by
  have hd : ¬name.data = [] := by
    intro hEq
    exact h2 (string_eq_of_data name "" hEq)
  rw [splitPathComponents, splitSegs_no_slash name.data h1 []]
  simp [hd]

/-- A slash-free name is not an absolute path. -/
theorem isAbsolutePath_eq_false (name : String) (h : '/' ∉ name.data) :
    isAbsolutePath name = false := by
  rw [isAbsolutePath]
  cases hd : name.data with
  | nil => rfl
  | cons c rest =>
    have : ¬c = '/' := by
      intro hEq
      rw [hd] at h
      exact h (hEq ▸ List.mem_cons_self c rest)
    simp [this]

/-- Resolving a path free of dot and dot-dot components changes nothing. -/
theorem foldl_resolveStep (l : List String) (h : ∀ c ∈ l, ¬c = ".." ∧ ¬c = ".") :
    ∀ acc : List String, List.foldl resolveStep acc l = acc ++ l := by
  induction l with
  | nil =>
    intro acc
    simp
  | cons c rest ih =>
    intro acc
    have hc := h c (List.mem_cons_self c rest)
    have hrest : ∀ d ∈ rest, ¬d = ".." ∧ ¬d = "." :=
      fun d hd => h d (List.mem_cons_of_mem c hd)
    rw [List.foldl_cons, resolveStep, if_neg hc.1, if_neg hc.2, ih hrest]
    simp

/-- Every list is a Boolean prefix of itself extended by one element. -/
theorem isPrefixOf_append_singleton (l : List String) (x : String) :
    l.isPrefixOf (l ++ [x]) = true := by
  induction l with
  | nil => rfl
  | cons a as ih => simp [List.isPrefixOf, ih]

/-- After a successful exclusive create, any further create attempt for the
same name fails, whatever fault the environment injects. -/
theorem openCreateNew_after_ok (fs fs1 : FS) (name : String) (fault : Bool)
    (h : openCreateNew fs name fault = .ok fs1) (fault2 : Bool) :
    isOkB (openCreateNew fs1 name fault2) = false := by
  obtain ⟨-, -, hfs1⟩ := openCreateNew_ok fs fs1 name fault h
  have hhas : fs1.hasFile name = true := by
    rw [hfs1]
    simp [FS.hasFile, hasEntry]
  cases fault2 with
  | true => simp [openCreateNew, isOkB]
  | false => simp [openCreateNew, isOkB, hhas]

/-- C1: in random-naming mode two concurrent uploads never both claim one
candidate name: the create step is the single atomic exclusive-create
operation `openCreateNew`, which fails when the path exists — under either
interleaving of two create attempts for the same name at most one succeeds,
and after a success every later attempt for that name fails. -/
theorem c1_exclusive_create_atomic :
    (∀ (fs : FS) (name : String) (f1 f2 : Bool) (s : Schedule),
        (isOkB (runTwo fs name f1 f2 s).1 && isOkB (runTwo fs name f1 f2 s).2) = false) ∧
    ∀ (fs fs1 : FS) (name : String) (fault : Bool),
      openCreateNew fs name fault = .ok fs1 →
        fs.hasFile name = false ∧ fs1.hasFile name = true ∧
          ∀ fault2 : Bool, isOkB (openCreateNew fs1 name fault2) = false := by
  constructor
  · intro fs name f1 f2 s
    cases s with
    | firstThenSecond =>
      cases hr1 : openCreateNew fs name f1 with
      | error e => simp [runTwo, hr1, isOkB]
      | ok fs1 =>
        have h2 := openCreateNew_after_ok fs fs1 name f1 hr1 f2
        simp [runTwo, hr1, stepFS, h2]
    | secondThenFirst =>
      cases hr2 : openCreateNew fs name f2 with
      | error e => simp [runTwo, hr2, isOkB]
      | ok fs2 =>
        have h1 := openCreateNew_after_ok fs fs2 name f2 hr2 f1
        simp [runTwo, hr2, stepFS, h1]
  · intro fs fs1 name fault h
    obtain ⟨-, hexist, hfs1⟩ := openCreateNew_ok fs fs1 name fault h
    refine ⟨hexist, ?_, openCreateNew_after_ok fs fs1 name fault h⟩
    rw [hfs1]
    simp [FS.hasFile, hasEntry]

/-- C1 witness: on an empty directory the first create of `a.txt` succeeds
and the concurrent second attempt fails. -/
theorem c1_exclusive_create_atomic_witness :
    (isOkB (runTwo (FS.mk []) "a.txt" false false .firstThenSecond).1 &&
      isOkB (runTwo (FS.mk []) "a.txt" false false .firstThenSecond).2) = false ∧
    isOkB (openCreateNew (FS.mk [("a.txt", [])]) "a.txt" false) = false :=
  ⟨c1_exclusive_create_atomic.1 (FS.mk []) "a.txt" false false .firstThenSecond,
    (c1_exclusive_create_atomic.2 (FS.mk []) (FS.mk [("a.txt", [])]) "a.txt" false
      (by decide)).2.2 false⟩

/-- C2 counterexample: a keep-name upload whose target `a.txt` already
exists is answered with `INTERNAL_SERVER_ERROR` (a server-error signal),
not with a client-error signal as the claim states. -/
theorem c2_counterexample :
    post 6 (some true)
        (some [⟨some "file", some "a.txt", some [9, 9]⟩])
        (FS.mk [("a.txt", [1, 2, 3])]) [⟨fun i => i, false, [some 10]⟩] =
      some (.error .internalServerError, FS.mk [("a.txt", [1, 2, 3])]) ∧
    HttpError.internalServerError ≠ HttpError.badRequest := by
  exact ⟨by decide, by decide⟩

/-- C2 (amended): in keep-name mode, when the target name already exists the
very first exclusive-create attempt aborts the request — no retry, the
existing file untouched — and the collision is surfaced as a server-error
signal (`INTERNAL_SERVER_ERROR`), not as a client error. -/
theorem c2_keep_name_collision (cfgLen : Nat) (orig ext : String) (bytes : List Nat)
    (fs : FS) (env : AttemptEnv) (rest : List AttemptEnv)
    (hexists : fs.hasFile orig = true) (hfault : env.createFault = false) :
    postLoop cfgLen true orig ext bytes fs (env :: rest) =
      some (.error .internalServerError, fs) := by
  have hcand : candidateName cfgLen true orig ext env = some orig := by
    simp [candidateName]
  have hopen : openCreateNew fs orig env.createFault = .error .alreadyExists := by
    simp [openCreateNew, hfault, hexists]
  simp [postLoop, hcand, hopen]

/-- C2 witness: concrete keep-name collision answered with 500 and the
directory left unchanged, whatever later iterations would have done. -/
theorem c2_keep_name_collision_witness :
    (FS.mk [("a.txt", [1])]).hasFile "a.txt" = true ∧
    postLoop 6 true "a.txt" "txt" [9] (FS.mk [("a.txt", [1])])
        [⟨fun i => i, false, []⟩] =
      some (.error .internalServerError, FS.mk [("a.txt", [1])]) :=
  ⟨by decide, c2_keep_name_collision 6 "a.txt" "txt" [9] (FS.mk [("a.txt", [1])])
    ⟨fun i => i, false, []⟩ [] (by decide) rfl⟩

/-- C3: in random mode a create attempt that fails because the candidate
already exists is retried with the next freshly generated candidate and is
invisible in the result, while any other create failure aborts immediately
with a server-error signal and no retry. -/
theorem c3_random_mode_retry (cfgLen : Nat) (orig ext : String) (bytes : List Nat)
    (fs : FS) (env : AttemptEnv) (rest : List AttemptEnv) (name : String)
    (hname : candidateName cfgLen false orig ext env = some name) :
    (env.createFault = false → fs.hasFile name = true →
        postLoop cfgLen false orig ext bytes fs (env :: rest) =
          postLoop cfgLen false orig ext bytes fs rest) ∧
    (env.createFault = true →
        postLoop cfgLen false orig ext bytes fs (env :: rest) =
          some (.error .internalServerError, fs)) := by
  constructor
  · intro hfault hex
    have hopen : openCreateNew fs name env.createFault = .error .alreadyExists := by
      simp [openCreateNew, hfault, hex]
    simp [postLoop, hname, hopen]
  · intro hfault
    have hopen : openCreateNew fs name env.createFault = .error .other := by
      simp [openCreateNew, hfault]
    simp [postLoop, hname, hopen]

/-- C3 witness: a concrete collision step equals the run without it, and a
concrete non-collision create fault yields an immediate 500. -/
theorem c3_random_mode_retry_witness :
    (postLoop 1 false "o.txt" "txt" [7] (FS.mk [("a.txt", [1])])
        [⟨fun i => i, false, [some 5]⟩] =
      postLoop 1 false "o.txt" "txt" [7] (FS.mk [("a.txt", [1])]) []) ∧
    (postLoop 1 false "o.txt" "txt" [7] (FS.mk [])
        [⟨fun i => i, true, [some 5]⟩] =
      some (.error .internalServerError, FS.mk [])) :=
  ⟨(c3_random_mode_retry 1 "o.txt" "txt" [7] (FS.mk [("a.txt", [1])])
      ⟨fun i => i, false, [some 5]⟩ [] "a.txt" (by decide)).1 rfl (by decide),
    (c3_random_mode_retry 1 "o.txt" "txt" [7] (FS.mk [])
      ⟨fun i => i, true, [some 5]⟩ [] "a.txt" (by decide)).2 rfl⟩

/-- C4: whenever the endpoint answers success, the file stored under the
returned name holds exactly the uploaded bytes — the copy loop drains the
whole buffer across arbitrary short writes. -/
theorem c4_success_stores_exact_bytes (cfgLen : Nat) (kp : Option Bool)
    (body : Option (List Part)) (fs fs' : FS) (envs : List AttemptEnv)
    (name orig : String) (bytes : List Nat)
    (hbody : get_file_name_and_bytes body = .ok (orig, bytes))
    (h : post cfgLen kp body fs envs = some (.ok name, fs')) :
    fs'.content name = some bytes := by
  simp only [post, hbody] at h
  cases hsplit : rsplit_once orig '.' with
  | none =>
    rw [hsplit] at h
    exact absurd h (by simp)
  | some pq =>
    rw [hsplit] at h
    exact postLoop_ok_content cfgLen (kp.getD false) orig pq.2 bytes envs fs fs' name h

/-- C4 witness: a zero-length upload succeeds and is stored as a zero-byte
file whose contents equal the (empty) uploaded bytes. -/
theorem c4_success_stores_exact_bytes_witness :
    post 1 (some false) (some [⟨some "file", some "a.txt", some []⟩]) (FS.mk [])
        [⟨fun i => i, false, []⟩] =
      some (.ok "a.txt", FS.mk [("a.txt", [])]) ∧
    (FS.mk [("a.txt", [])]).content "a.txt" = some [] :=
  ⟨by decide,
    c4_success_stores_exact_bytes 1 (some false)
      (some [⟨some "file", some "a.txt", some []⟩]) (FS.mk [])
      (FS.mk [("a.txt", [])]) [⟨fun i => i, false, []⟩] "a.txt" "a.txt" []
      (by decide) (by decide)⟩

/-- C5: the identifier generator never fails, returns exactly the requested
number of characters (zero gives the empty string), each character is the
image of that iteration's sample under the value-to-character map, and the
map sends 0-25 to lowercase letters, 26-51 to uppercase letters and 52-61
to digits, all inside the 62-symbol alphabet. -/
theorem c5_generate_name_spec (len : Nat) (entropy : Nat → Nat) :
    ∃ s : String, generate_name len entropy = some s ∧ s.length = len ∧
      (∀ j, j < len → s.data[j]? = num_to_char (genRange61 (entropy j))) ∧
      (∀ c, c ∈ s.data → c ∈ alphabet62.data) ∧
      (len = 0 → s = "") ∧
      (∀ v, v < 26 → num_to_char v = some (Char.ofNat (97 + v))) ∧
      (∀ v, v < 52 → 26 ≤ v → num_to_char v = some (Char.ofNat (65 + (v - 26)))) ∧
      (∀ v, v < 62 → 52 ≤ v → num_to_char v = some (Char.ofNat (48 + (v - 52)))) := by
  obtain ⟨l, hl, hlen, hget⟩ := gen_chars_spec entropy len 0
  have hdata : (String.mk l).data = l := rfl
  refine ⟨String.mk l, ?_, ?_, ?_, ?_, ?_, ?_, ?_, ?_⟩
  · simp [generate_name, hl]
  · simpa [String.length] using hlen
  · intro j hj
    rw [hdata]
    simpa using hget j hj
  · intro c hc
    rw [hdata] at hc
    obtain ⟨j, hj⟩ := List.mem_iff_getElem?.mp hc
    have hjl : j < l.length := by
      by_contra hge
      rw [List.getElem?_eq_none (by omega)] at hj
      exact Option.noConfusion hj
    have hjlen : j < len := hlen ▸ hjl
    have h2 := hget j hjlen
    rw [hj, Nat.zero_add] at h2
    exact num_to_char_mem_alphabet (genRange61 (entropy j))
      (Nat.mod_lt _ (by omega)) c h2.symm
  · intro h0
    subst h0
    rw [List.length_eq_zero.mp hlen]
  · decide
  · decide
  · decide

/-- C6: extension extraction splits at the last dot — the parts reassemble
the name and the extension holds no further dot, so it is the verbatim
suffix after the last dot (possibly empty) — the split fails exactly when
the name has no dot, and then the request is answered with the client-error
signal `BAD_REQUEST` with the directory untouched. -/
theorem c6_extension_extraction :
    (∀ name pre ext : String, rsplit_once name '.' = some (pre, ext) →
        name = pre ++ "." ++ ext ∧ '.' ∉ ext.data) ∧
    (∀ name : String, rsplit_once name '.' = none ↔ '.' ∉ name.data) ∧
    ∀ (cfgLen : Nat) (kp : Option Bool) (fn : String) (bs : List Nat)
      (rest : List Part) (fs : FS) (envs : List AttemptEnv), '.' ∉ fn.data →
        post cfgLen kp (some (⟨some "file", some fn, some bs⟩ :: rest)) fs envs =
          some (.error .badRequest, fs) := by
  refine ⟨?_, ?_, ?_⟩
  · intro name pre ext h
    rw [rsplit_once] at h
    cases hr : rsplitOnceList '.' name.data with
    | none =>
      rw [hr] at h
      exact absurd h (by simp)
    | some pq =>
      rw [hr] at h
      simp only [Option.map_some', Option.some.injEq, Prod.mk.injEq] at h
      obtain ⟨hpre, hext⟩ := h
      obtain ⟨hdata, hnot⟩ := rsplitOnceList_eq_some '.' name.data pq.1 pq.2 hr
      constructor
      · apply string_eq_of_data
        rw [hdata, string_data_append, string_data_append, ← hpre, ← hext]
        simp only [List.append_assoc]
        rfl
      · rw [← hext]
        exact hnot
  · intro name
    constructor
    · intro h
      cases hr : rsplitOnceList '.' name.data with
      | none => exact (rsplitOnceList_eq_none '.' name.data).mp hr
      | some pq =>
        rw [rsplit_once, hr] at h
        exact absurd h (by simp)
    · intro h
      rw [rsplit_once, (rsplitOnceList_eq_none '.' name.data).mpr h]
      rfl
  · intro cfgLen kp fn bs rest fs envs hnd
    have hb : get_file_name_and_bytes (some (⟨some "file", some fn, some bs⟩ :: rest)) =
        .ok (fn, bs) := by
      simp [get_file_name_and_bytes]
    have hr : rsplit_once fn '.' = none := by
      rw [rsplit_once, (rsplitOnceList_eq_none '.' fn.data).mpr hnd]
      rfl
    simp [post, hb, hr]

/-- C6 witness: the spec's four examples, and a dotless keep-name request
rejected with `BAD_REQUEST` before any file is created. -/
theorem c6_extension_extraction_witness :
    ("a.txt" = "a" ++ "." ++ "txt" ∧ '.' ∉ "txt".data) ∧
    ("archive.tar.gz" = "archive.tar" ++ "." ++ "gz" ∧ '.' ∉ "gz".data) ∧
    ("trailing." = "trailing" ++ "." ++ "" ∧ '.' ∉ "".data) ∧
    (rsplit_once "noext" '.' = none ↔ '.' ∉ "noext".data) ∧
    post 6 (some true) (some [⟨some "file", some "noext", some [1]⟩]) (FS.mk []) [] =
      some (.error .badRequest, FS.mk []) :=
  ⟨c6_extension_extraction.1 "a.txt" "a" "txt" (by decide),
    c6_extension_extraction.1 "archive.tar.gz" "archive.tar" "gz" (by decide),
    c6_extension_extraction.1 "trailing." "trailing" "" (by decide),
    c6_extension_extraction.2.1 "noext",
    c6_extension_extraction.2.2 6 (some true) "noext" [1] [] (FS.mk []) [] (by decide)⟩

/-- C7: in random mode every candidate name, and hence every successfully
returned name, is the generated identifier followed by a dot and the
extracted extension; an empty extension yields a trailing-dot name. -/
theorem c7_random_candidate_shape (cfgLen : Nat) (orig ext : String) (bytes : List Nat)
    (fs fs' : FS) (envs : List AttemptEnv) (env : AttemptEnv) (name : String) :
    (candidateName cfgLen false orig ext env = some name →
        ∃ g, generate_name cfgLen env.entropy = some g ∧ name = g ++ "." ++ ext) ∧
    (postLoop cfgLen false orig ext bytes fs envs = some (.ok name, fs') →
        ∃ env2 ∈ envs, ∃ g, generate_name cfgLen env2.entropy = some g ∧
          name = g ++ "." ++ ext) := by
  constructor
  · intro h
    simp only [candidateName, Bool.false_eq_true, if_false] at h
    cases hg : generate_name cfgLen env.entropy with
    | none =>
      rw [hg] at h
      exact absurd h (by simp)
    | some g =>
      rw [hg] at h
      simp only [Option.map_some', Option.some.injEq] at h
      exact ⟨g, rfl, h.symm⟩
  · exact postLoop_random_names cfgLen orig ext bytes envs fs fs' name

/-- C7 witness: a concrete upload whose original name ends in a dot is
stored successfully under a generated trailing-dot name. -/
theorem c7_random_candidate_shape_witness :
    (∃ g, generate_name 2 (fun i => i) = some g ∧ "ab." = g ++ "." ++ "") ∧
    post 2 (some false) (some [⟨some "file", some "name.", some [5]⟩]) (FS.mk [])
        [⟨fun i => i, false, [some 9]⟩] =
      some (.ok "ab.", FS.mk [("ab.", [5])]) :=
  ⟨(c7_random_candidate_shape 2 "name." "" [5] (FS.mk []) (FS.mk [("ab.", [5])]) []
      ⟨fun i => i, false, [some 9]⟩ "ab.").1 (by decide),
    by decide⟩

/-- C8: when the exclusive create succeeds but the subsequent copy fails,
the request is answered with the server-error signal 500 and the created
file stays in the directory holding the prefix of the bytes written so far:
no rollback or deletion happens. -/
theorem c8_write_failure_leaves_file (cfgLen : Nat) (keepName : Bool) (orig ext : String)
    (bytes : List Nat) (fs : FS) (env : AttemptEnv) (rest : List AttemptEnv)
    (name : String) (written : List Nat)
    (hname : candidateName cfgLen keepName orig ext env = some name)
    (hfault : env.createFault = false) (hnew : fs.hasFile name = false)
    (hwrite : copyBuf bytes [] env.writeSteps = some (written, false)) :
    postLoop cfgLen keepName orig ext bytes fs (env :: rest) =
      some (.error .internalServerError,
        (FS.mk ((name, []) :: fs.files)).setContent name written) ∧
    ((FS.mk ((name, []) :: fs.files)).setContent name written).content name =
      some written ∧
    ∃ k, written = bytes.take k := by
  have hopen : openCreateNew fs name env.createFault =
      .ok (FS.mk ((name, []) :: fs.files)) := by
    simp [openCreateNew, hfault, hnew]
  refine ⟨?_, content_after_create fs name written, ?_⟩
  · simp [postLoop, hname, hopen, hwrite]
  · obtain ⟨-, k, hk⟩ := copyBuf_spec env.writeSteps bytes [] written false hwrite
    exact ⟨k, by simpa using hk⟩

/-- C8 witness: a write that fails after two of three bytes leaves the file
in place holding the two-byte prefix and answers 500. -/
theorem c8_write_failure_leaves_file_witness :
    postLoop 1 false "o.txt" "txt" [1, 2, 3] (FS.mk [])
        [⟨fun i => i, false, [some 2, none]⟩] =
      some (.error .internalServerError,
        (FS.mk [("a.txt", [])]).setContent "a.txt" [1, 2]) ∧
    ((FS.mk [("a.txt", [])]).setContent "a.txt" [1, 2]).content "a.txt" =
      some [1, 2] ∧
    ∃ k, [1, 2] = [1, 2, 3].take k :=
  c8_write_failure_leaves_file 1 false "o.txt" "txt" [1, 2, 3] (FS.mk [])
    ⟨fun i => i, false, [some 2, none]⟩ [] "a.txt" [1, 2]
    (by decide) rfl (by decide) (by decide)

/-- C9 counterexample: in keep-name mode the caller-supplied name is used
verbatim, so the name `../evil.txt` is accepted, the upload succeeds, and
the path the handler opens resolves to `srv/evil.txt`, outside the
configured directory `srv/uploads` — the claim that every created file lies
inside the target directory for every caller-supplied filename is false. -/
theorem c9_counterexample :
    post 6 (some true) (some [⟨some "file", some "../evil.txt", some [7]⟩])
        (FS.mk []) [⟨fun i => i, false, [some 5]⟩] =
      some (.ok "../evil.txt", FS.mk [("../evil.txt", [7])]) ∧
    resolvePath (pathPush ["srv", "uploads"] "../evil.txt") = ["srv", "evil.txt"] ∧
    insideDirB ["srv", "uploads"] (pathPush ["srv", "uploads"] "../evil.txt") = false := by
  exact ⟨by decide, by decide, by decide⟩

/-- C9 (amended): the engine only creates new files — every file present
before a store run is still present afterwards with unchanged contents (no
delete, overwrite or truncation, in either naming mode) — and the opened
path stays a direct entry of the configured directory whenever the
effective file name is a single plain path component; a caller-supplied
keep-name value containing separators or dot-dot components can escape the
directory. -/
theorem c9_create_only_no_overwrite (cfgLen : Nat) (keepName : Bool) (orig ext : String)
    (bytes : List Nat) (fs fs' : FS) (r : Except HttpError String)
    (envs : List AttemptEnv) (dir : List String) (name : String)
    (hrun : postLoop cfgLen keepName orig ext bytes fs envs = some (r, fs'))
    (hdir : ∀ c ∈ dir, ¬c = ".." ∧ ¬c = ".")
    (hslash : '/' ∉ name.data) (hne : ¬name = "")
    (hdot2 : ¬name = "..") (hdot1 : ¬name = ".") :
    (∀ n, fs.hasFile n = true → fs'.hasFile n = true ∧ fs'.content n = fs.content n) ∧
    insideDirB dir (pathPush dir name) = true := by
  refine ⟨fun n hn =>
    postLoop_frame cfgLen keepName orig ext bytes envs fs fs' r hrun n hn, ?_⟩
  have hcomp : splitPathComponents name = [name] :=
    splitPathComponents_single name hslash hne
  have habs : isAbsolutePath name = false := isAbsolutePath_eq_false name hslash
  rw [pathPush, if_neg (by simp [habs]), hcomp]
  have hall : ∀ c ∈ dir ++ [name], ¬c = ".." ∧ ¬c = "." := by
    intro c hc
    rcases List.mem_append.mp hc with h1 | h2
    · exact hdir c h1
    · rw [List.mem_singleton.mp h2]
      exact ⟨hdot2, hdot1⟩
  have hres : resolvePath (dir ++ [name]) = dir ++ [name] := by
    rw [resolvePath]
    simpa using foldl_resolveStep (dir ++ [name]) hall []
  rw [insideDirB, hres]
  simp [isPrefixOf_append_singleton]

/-- C9 witness: a concrete keep-name collision run leaves the existing file
untouched, and a plain single-component name lands inside the directory. -/
theorem c9_create_only_no_overwrite_witness :
    ((FS.mk [("a.txt", [1])]).hasFile "a.txt" = true ∧
      (FS.mk [("a.txt", [1])]).content "a.txt" = (FS.mk [("a.txt", [1])]).content "a.txt") ∧
    insideDirB ["srv", "uploads"] (pathPush ["srv", "uploads"] "b.txt") = true := by
  have h := c9_create_only_no_overwrite 1 true "a.txt" "txt" [9]
    (FS.mk [("a.txt", [1])]) (FS.mk [("a.txt", [1])]) (.error .internalServerError)
    [⟨fun i => i, false, []⟩] ["srv", "uploads"] "b.txt"
    (by decide) (by decide) (by decide) (by decide) (by decide) (by decide)
  exact ⟨h.1 "a.txt" (by decide), h.2⟩

/-- C10: the endpoint inspects only the first part of the multipart body —
the outcome on `p :: rest` is the outcome on `[p]` alone — and whenever the
first part is absent, unreadable, misnamed or lacks a filename, the request
is answered with the client-error signal `BAD_REQUEST` with the directory
untouched, whatever well-formed parts follow. -/
theorem c10_first_part_only (cfgLen : Nat) (kp : Option Bool) (fs : FS)
    (envs : List AttemptEnv) :
    (∀ (p : Part) (rest : List Part), get_file_name_and_bytes (some (p :: rest)) =
        get_file_name_and_bytes (some [p])) ∧
    (post cfgLen kp none fs envs = some (.error .badRequest, fs)) ∧
    (post cfgLen kp (some []) fs envs = some (.error .badRequest, fs)) ∧
    ∀ (p : Part) (rest : List Part),
      (¬p.fieldName = some "file" ∨ p.fileName = none ∨ p.bytesRead = none) →
        post cfgLen kp (some (p :: rest)) fs envs = some (.error .badRequest, fs) := by
  refine ⟨?_, ?_, ?_, ?_⟩
  · intro p rest
    rfl
  · rfl
  · rfl
  · intro p rest hbad
    have hb : get_file_name_and_bytes (some (p :: rest)) = .error .badRequest := by
      rcases hbad with hb | hb | hb
      · simp [get_file_name_and_bytes, hb]
      · by_cases hf : p.fieldName = some "file"
        · simp [get_file_name_and_bytes, hf, hb]
        · simp [get_file_name_and_bytes, hf]
      · by_cases hf : p.fieldName = some "file"
        · cases hfn : p.fileName with
          | none => simp [get_file_name_and_bytes, hf, hfn]
          | some fn => simp [get_file_name_and_bytes, hf, hfn, hb]
        · simp [get_file_name_and_bytes, hf]
    simp [post, hb]

/-- C10 witness: a first part named `other` is rejected with `BAD_REQUEST`
even though a well-formed part named `file` follows it, and the outcome
ignores everything after the first part. -/
theorem c10_first_part_only_witness :
    post 1 none (some [⟨some "other", some "x.txt", some [1]⟩,
        ⟨some "file", some "y.txt", some [2]⟩]) (FS.mk []) [] =
      some (.error .badRequest, FS.mk []) ∧
    get_file_name_and_bytes (some [⟨some "other", some "x.txt", some [1]⟩,
        ⟨some "file", some "y.txt", some [2]⟩]) =
      get_file_name_and_bytes (some [⟨some "other", some "x.txt", some [1]⟩]) :=
  ⟨(c10_first_part_only 1 none (FS.mk []) []).2.2.2
      ⟨some "other", some "x.txt", some [1]⟩ [⟨some "file", some "y.txt", some [2]⟩]
      (Or.inl (by decide)),
    (c10_first_part_only 1 none (FS.mk []) []).1
      ⟨some "other", some "x.txt", some [1]⟩ [⟨some "file", some "y.txt", some [2]⟩]⟩

end Upload
